import Mathlib

/-!
# Verification of the ciborium CBOR codec against its specification

This file contains a shallow embedding of the parts of the ciborium
repository (enarx/ciborium) that the audited claims are about, together
with theorems settling each claim.

Conventions of the embedding:

* Machine bytes are naturals (`Nat`) that the parsing and encoding
  functions keep below 256; `u64`/`usize` arithmetic that can wrap is
  made explicit with `% 2^64`.
* The affix of a CBOR item is represented by its big-endian numeric
  value together with the width tag (`Minor.Next1 ...` etc.), which is
  an isomorphic rendering of the `[u8; N]` arrays of the source
  (`u16::from_be_bytes` / `to_be_bytes` mediate the same bijection).
* Rust `Result` becomes `Except`, `panic`/`assert!` failures become a
  dedicated `PanicOr` type.
* Reader loops carry an explicit fuel argument that strictly decreases
  on every iteration.  Every loop of the source consumes at least one
  input byte per iteration, so entry points pass `input.length + 1`
  (or more) and the fuel-exhaustion branch is unreachable; it returns
  the same `io` error an exhausted reader would.
-/

namespace Ciborium

/-- Big-endian byte list (width `n`) of a numeric value, as produced by
`to_be_bytes` in the source. -/
def beBytes : Nat → Nat → List Nat
  | 0, _ => []
  | n + 1, x => (x / 2 ^ (8 * n)) % 256 :: beBytes n x

/-- Numeric value of a big-endian byte list, as computed by
`from_be_bytes` in the source. -/
def fromBE (l : List Nat) : Nat :=
  l.foldl (fun acc b => acc * 256 + b) 0

/-- `src/src/basic/mod.rs`: the `Major` enum (top three bits of the
prefix byte). -/
inductive Major where
  | Positive
  | Negative
  | Bytes
  | Text
  | Array
  | Map
  | Tag
  | Other
deriving DecidableEq, Repr

/-- Numeric value of a `Major` (the value shifted into the top three
bits on encode). -/
def Major.bits : Major → Nat
  | .Positive => 0
  | .Negative => 1
  | .Bytes => 2
  | .Text => 3
  | .Array => 4
  | .Map => 5
  | .Tag => 6
  | .Other => 7

/-- `src/src/basic/dec.rs` decode of the top three bits of a prefix
byte to a `Major` (values 0..=7). -/
def majorOfBits (n : Nat) : Major :=
  match n with
  | 0 => .Positive
  | 1 => .Negative
  | 2 => .Bytes
  | 3 => .Text
  | 4 => .Array
  | 5 => .Map
  | 6 => .Tag
  | _ => .Other

/-- `src/src/basic/mod.rs`: the `Minor` enum.  `This` holds an
immediate 5-bit value, `NextN` holds the numeric value of the `N`
big-endian affix bytes, `More` is the indeterminate marker (5-bit
value 31). -/
inductive Minor where
  | This (x : Nat)
  | Next1 (x : Nat)
  | Next2 (x : Nat)
  | Next4 (x : Nat)
  | Next8 (x : Nat)
  | More
deriving DecidableEq, Repr

/-- Length of the affix of a `Minor` (`Minor::as_ref().len()` in the
source). -/
def Minor.affixLen : Minor → Nat
  | .This _ => 0
  | .Next1 _ => 1
  | .Next2 _ => 2
  | .Next4 _ => 4
  | .Next8 _ => 8
  | .More => 0

/-- Affix bytes of a `Minor` as written on the wire. -/
def Minor.affixBytes : Minor → List Nat
  | .This _ => []
  | .Next1 x => beBytes 1 x
  | .Next2 x => beBytes 2 x
  | .Next4 x => beBytes 4 x
  | .Next8 x => beBytes 8 x
  | .More => []

/-- 5-bit selector of a `Minor` as written into the prefix byte. -/
def Minor.sel : Minor → Nat
  | .This x => x
  | .Next1 _ => 24
  | .Next2 _ => 25
  | .Next4 _ => 26
  | .Next8 _ => 27
  | .More => 31

/-- `Option<u64>::from(minor)` in the source: the numeric value carried
by the minor, or `none` for the indeterminate marker. -/
def Minor.value? : Minor → Option Nat
  | .This x => some x
  | .Next1 x => some x
  | .Next2 x => some x
  | .Next4 x => some x
  | .Next8 x => some x
  | .More => none

/-- Well-formedness of a `Minor` in this embedding: the carried value
fits the width of the affix (automatic for the `[u8; N]` arrays of the
source). -/
def Minor.WF : Minor → Prop
  | .This x => x < 24
  | .Next1 x => x < 2 ^ 8
  | .Next2 x => x < 2 ^ 16
  | .Next4 x => x < 2 ^ 32
  | .Next8 x => x < 2 ^ 64
  | .More => True

instance : DecidablePred Minor.WF := fun m => by
  cases m <;> simp [Minor.WF] <;> infer_instance

/-- `src/src/basic/mod.rs`: `struct Title(pub Major, pub Minor)`. -/
structure Title where
  maj : Major
  mnr : Minor
deriving DecidableEq, Repr

/-- Wire encoding of a `Title`: prefix byte then affix bytes
(`src/src/basic/enc.rs` `Encoder::encode`). -/
def encodeTitle (t : Title) : List Nat :=
  (t.maj.bits * 32 + t.mnr.sel) :: t.mnr.affixBytes

/-- `From<u64> for Minor` (`src/src/basic/hdr.rs`-side `int` closure):
shortest-width selection for an integer value. -/
def minorFromU64 (x : Nat) : Minor :=
  if x ≤ 23 then .This x
  else if x ≤ 255 then .Next1 x
  else if x ≤ 65535 then .Next2 x
  else if x ≤ 4294967295 then .Next4 x
  else .Next8 x

/-- The `len` closure of `From<Header> for Title`: definite lengths use
the shortest integer width, indefinite becomes the `More` marker. -/
def minorFromLen (l : Option Nat) : Minor :=
  match l with
  | some x => minorFromU64 x
  | none => .More

/-! ## Exact IEEE-754 widening (used by the `Header` layer for floats)

The source widens `f16`/`f32` affixes to `f64` (`f16::from_be_bytes(x).into()`
etc.).  Widening between IEEE formats is exact and is modelled here at the
bit-pattern level (sign, rebased exponent, left-shifted mantissa, subnormal
normalisation; NaN payloads are shifted like any other mantissa, matching
`fpext`). -/

/-- Bit-level `f64::from(f16)`: exact IEEE widening of a binary16 bit
pattern to a binary64 bit pattern. -/
def f16ToF64bits (b : Nat) : Nat :=
  let s := b / 2 ^ 15 % 2
  let e := b / 2 ^ 10 % 32
  let m := b % 2 ^ 10
  if e = 31 then s * 2 ^ 63 + 2047 * 2 ^ 52 + m * 2 ^ 42
  else if e = 0 then
    if m = 0 then s * 2 ^ 63
    else
      let k := Nat.log2 m
      s * 2 ^ 63 + (999 + k) * 2 ^ 52 + (m - 2 ^ k) * 2 ^ (52 - k)
  else s * 2 ^ 63 + (e + 1008) * 2 ^ 52 + m * 2 ^ 42

/-- Bit-level `f64::from(f32)`: exact IEEE widening of a binary32 bit
pattern to a binary64 bit pattern. -/
def f32ToF64bits (b : Nat) : Nat :=
  let s := b / 2 ^ 31 % 2
  let e := b / 2 ^ 23 % 256
  let m := b % 2 ^ 23
  if e = 255 then s * 2 ^ 63 + 2047 * 2 ^ 52 + m * 2 ^ 29
  else if e = 0 then
    if m = 0 then s * 2 ^ 63
    else
      let k := Nat.log2 m
      s * 2 ^ 63 + (874 + k) * 2 ^ 52 + (m - 2 ^ k) * 2 ^ (52 - k)
  else s * 2 ^ 63 + (e + 896) * 2 ^ 52 + m * 2 ^ 29

/-- Inverse of `f16ToF64bits` where it exists: reconstructs the unique
binary16 bit pattern that widens to the given binary64 bit pattern.
This models the guard `f64::from(f16::from_f64(n64)).to_bits() ==
n64.to_bits()` of `src/src/basic/hdr.rs` (exact invertibility of the
widening embedding); see the notes on claim C6 for NaN payloads. -/
def narrowF16? (d : Nat) : Option Nat :=
  let s := d / 2 ^ 63 % 2
  let e := d / 2 ^ 52 % 2048
  let m := d % 2 ^ 52
  let cand : Option Nat :=
    if e = 2047 then
      if m % 2 ^ 42 = 0 then some (s * 2 ^ 15 + 31 * 2 ^ 10 + m / 2 ^ 42) else none
    else if d % 2 ^ 63 = 0 then some (s * 2 ^ 15)
    else if 1009 ≤ e ∧ e ≤ 1038 ∧ m % 2 ^ 42 = 0 then
      some (s * 2 ^ 15 + (e - 1008) * 2 ^ 10 + m / 2 ^ 42)
    else if 999 ≤ e ∧ e ≤ 1008 then
      let k := e - 999
      if m % 2 ^ (52 - k) = 0 then some (s * 2 ^ 15 + 2 ^ k + m / 2 ^ (52 - k))
      else none
    else none
  match cand with
  | some h => if h < 2 ^ 16 ∧ f16ToF64bits h = d then some h else none
  | none => none

/-- Inverse of `f32ToF64bits` where it exists (see `narrowF16?`). -/
def narrowF32? (d : Nat) : Option Nat :=
  let s := d / 2 ^ 63 % 2
  let e := d / 2 ^ 52 % 2048
  let m := d % 2 ^ 52
  let cand : Option Nat :=
    if e = 2047 then
      if m % 2 ^ 29 = 0 then some (s * 2 ^ 31 + 255 * 2 ^ 23 + m / 2 ^ 29) else none
    else if d % 2 ^ 63 = 0 then some (s * 2 ^ 31)
    else if 897 ≤ e ∧ e ≤ 1150 ∧ m % 2 ^ 29 = 0 then
      some (s * 2 ^ 31 + (e - 896) * 2 ^ 23 + m / 2 ^ 29)
    else if 874 ≤ e ∧ e ≤ 896 then
      let k := e - 874
      if m % 2 ^ (52 - k) = 0 then some (s * 2 ^ 31 + 2 ^ k + m / 2 ^ (52 - k))
      else none
    else none
  match cand with
  | some h => if h < 2 ^ 32 ∧ f32ToF64bits h = d then some h else none
  | none => none

/-- `src/src/basic/hdr.rs`: the `Header` enum.  `Float` carries the
`f64` bit pattern, lengths are `Option Nat` (`Option<usize>`). -/
inductive Header where
  | Positive (x : Nat)
  | Negative (x : Nat)
  | Float (bits : Nat)
  | Simple (x : Nat)
  | Tag (x : Nat)
  | Break
  | Bytes (len : Option Nat)
  | Text (len : Option Nat)
  | Array (len : Option Nat)
  | Map (len : Option Nat)
deriving DecidableEq, Repr

/-- `src/src/basic/hdr.rs` `TryFrom<Title> for Header` (lines 22-63).
`Positive`/`Negative`/`Tag` reject the indeterminate minor; the length
conversion `u64 -> usize` never fails on a 64-bit host; every one-byte
simple affix is accepted as `Simple` (no reserved-range check). -/
def tryFromTitle (t : Title) : Except Unit Header :=
  match t with
  | ⟨.Positive, m⟩ => (m.value?).elim (.error ()) (fun x => .ok (.Positive x))
  | ⟨.Negative, m⟩ => (m.value?).elim (.error ()) (fun x => .ok (.Negative x))
  | ⟨.Bytes, m⟩ => .ok (.Bytes m.value?)
  | ⟨.Text, m⟩ => .ok (.Text m.value?)
  | ⟨.Array, m⟩ => .ok (.Array m.value?)
  | ⟨.Map, m⟩ => .ok (.Map m.value?)
  | ⟨.Tag, m⟩ => (m.value?).elim (.error ()) (fun x => .ok (.Tag x))
  | ⟨.Other, .More⟩ => .ok .Break
  | ⟨.Other, .This x⟩ => .ok (.Simple x)
  | ⟨.Other, .Next1 x⟩ => .ok (.Simple x)
  | ⟨.Other, .Next2 x⟩ => .ok (.Float (f16ToF64bits x))
  | ⟨.Other, .Next4 x⟩ => .ok (.Float (f32ToF64bits x))
  | ⟨.Other, .Next8 x⟩ => .ok (.Float x)

/-- `src/src/basic/hdr.rs` `From<Header> for Title` (lines 65-110).
The float arm selects the narrowest affix whose widening reproduces the
`f64` bit pattern, via the exact inverses of the widening embeddings. -/
def titleOfHeader (h : Header) : Title :=
  match h with
  | .Positive x => ⟨.Positive, minorFromU64 x⟩
  | .Negative x => ⟨.Negative, minorFromU64 x⟩
  | .Bytes x => ⟨.Bytes, minorFromLen x⟩
  | .Text x => ⟨.Text, minorFromLen x⟩
  | .Array x => ⟨.Array, minorFromLen x⟩
  | .Map x => ⟨.Map, minorFromLen x⟩
  | .Tag x => ⟨.Tag, minorFromU64 x⟩
  | .Break => ⟨.Other, .More⟩
  | .Simple x => if x ≤ 23 then ⟨.Other, .This x⟩ else ⟨.Other, .Next1 x⟩
  | .Float bits =>
    match narrowF16? bits with
    | some h16 => ⟨.Other, .Next2 h16⟩
    | none =>
      match narrowF32? bits with
      | some h32 => ⟨.Other, .Next4 h32⟩
      | none => ⟨.Other, .Next8 bits⟩

/-- Wire bytes of a `Header` (encoder `push`:
`Title::from(header)` then `Encoder::encode`). -/
def encodeHeader (h : Header) : List Nat :=
  encodeTitle (titleOfHeader h)

/-! ## The low-level decoder (`src/src/basic/dec.rs`) -/

/-- `src/src/basic/dec.rs`: `enum Error` — an I/O error from the
underlying reader (its payload is irrelevant here) or a syntax error
carrying the stream offset. -/
inductive BasicError where
  | io
  | synError (offset : Nat)
deriving DecidableEq, Repr

/-- The reading loop of `Itemizer<Title>::pull`
(`src/src/basic/dec.rs` lines 82-113), entered with an empty lookahead
slot: read a prefix byte, reject the reserved selectors 28-30 with
`Syntax(offset)` (the source's `self.offset - 1` after the prefix was
consumed), read the affix, and loop when a tag is being skipped.  The
fuel strictly decreases; one input byte is consumed per iteration, so
`reader.length + 1` is always enough.  The result carries the title,
the offset at which the title started, the remaining input and the
offset after the title. -/
def decTitleLoop : Nat → List Nat → Nat → Bool → Except BasicError (Title × Nat × List Nat × Nat)
  | 0, _, _, _ => .error .io
  | fuel + 1, reader, offset, skipTag =>
    match reader with
    | [] => .error .io
    | b :: rest =>
      let maj := majorOfBits (b / 32)
      let sel := b % 32
      let w? : Option Nat :=
        if sel < 24 then some 0
        else if sel = 24 then some 1
        else if sel = 25 then some 2
        else if sel = 26 then some 4
        else if sel = 27 then some 8
        else if sel = 31 then some 0
        else none
      match w? with
      | none => .error (.synError offset)
      | some w =>
        if rest.length < w then .error .io
        else
          let mnr : Minor :=
            if sel < 24 then .This sel
            else if sel = 24 then .Next1 (fromBE (rest.take 1))
            else if sel = 25 then .Next2 (fromBE (rest.take 2))
            else if sel = 26 then .Next4 (fromBE (rest.take 4))
            else if sel = 27 then .Next8 (fromBE (rest.take 8))
            else .More
          if maj = .Tag ∧ skipTag then
            decTitleLoop fuel (rest.drop w) (offset + 1 + w) skipTag
          else
            .ok (⟨maj, mnr⟩, offset, rest.drop w, offset + 1 + w)

/-- `usize` subtraction as compiled in release mode (wrapping). -/
def wsub (a b : Nat) : Nat :=
  (a + (2 ^ 64 - b % 2 ^ 64)) % 2 ^ 64

/-- `src/src/basic/dec.rs`: `struct Decoder` — reader, monotone offset
and the one-slot lookahead buffer. -/
structure Decoder where
  reader : List Nat
  offset : Nat
  buffer : Option Title
deriving DecidableEq, Repr

/-- Outcome of an operation that contains an `assert!`: either a panic
(assertion failure) or the value. -/
inductive PanicOr (α : Type) where
  | panic
  | ok (val : α)
deriving DecidableEq, Repr

/-- `Read for Decoder` (`src/src/basic/dec.rs` lines 50-60):
`read_exact` asserts that no title is buffered, then consumes `n` bytes
and advances the offset. -/
def decReadExact (d : Decoder) (n : Nat) : PanicOr (Except BasicError (List Nat × Decoder)) :=
  if d.buffer.isSome then .panic
  else if d.reader.length < n then .ok (.error .io)
  else .ok (.ok (d.reader.take n,
    { d with reader := d.reader.drop n, offset := d.offset + n }))

/-- `Decoder::push` (`src/src/basic/dec.rs` lines 136-141): asserts the
lookahead slot is empty, stores the title and rewinds the offset by
the title's wire length (a wrapping `usize` subtraction). -/
def decPush (d : Decoder) (t : Title) : PanicOr Decoder :=
  if d.buffer.isSome then .panic
  else .ok { d with buffer := some t, offset := wsub d.offset (t.mnr.affixLen + 1) }

/-- `Itemizer<Title>::pull` (`src/src/basic/dec.rs` lines 72-114): a
buffered title is returned (re-advancing the offset) unless it is a
tag being skipped; otherwise titles are read from the wire. -/
def decPullTitle (d : Decoder) (skipTag : Bool) : Except BasicError (Title × Decoder) :=
  match d.buffer with
  | some t =>
    let off := (d.offset + (t.mnr.affixLen + 1)) % 2 ^ 64
    if t.maj ≠ .Tag ∨ skipTag = false then
      .ok (t, { d with buffer := none, offset := off })
    else
      (decTitleLoop (d.reader.length + 1) d.reader off skipTag).map
        fun r => (r.1, ⟨r.2.2.1, r.2.2.2, none⟩)
  | none =>
    (decTitleLoop (d.reader.length + 1) d.reader d.offset skipTag).map
      fun r => (r.1, ⟨r.2.2.1, r.2.2.2, none⟩)

/-- `Itemizer<Header>::pull` (`src/src/basic/dec.rs` lines 127-132):
pull a title and promote it, reporting conversion failure as a syntax
error at the offset captured before the pull. -/
def decPullHeader (d : Decoder) (skipTag : Bool) : Except BasicError (Header × Decoder) :=
  let off := d.offset
  match decPullTitle d skipTag with
  | .error e => .error e
  | .ok (t, d') =>
    match tryFromTitle t with
    | .ok h => .ok (h, d')
    | .error _ => .error (.synError off)

/-! ## The segment reader (`src/src/basic/seg.rs`) -/

/-- The `unwrap` closures passed to `Segments::new` by
`Decoder::bytes` / `Decoder::text`: accept a header of the expected
major and return its length. -/
def unwrapSeg (maj : Major) (h : Header) : Except Unit (Option Nat) :=
  match maj, h with
  | .Bytes, .Bytes len => .ok len
  | .Text, .Text len => .ok len
  | _, _ => .error ()

/-- The loop of `Segments::next` (`src/src/basic/seg.rs` lines
136-166) in indefinite mode (`nested ≥ 1`), fused with the payload
reads performed by `Segment::next` for a scratch buffer at least as
large as each chunk: a `Break` at depth one terminates, a `Break`
deeper decrements the nesting, an indefinite same-major sub-item
increments it, and a definite sub-item of length `len` is read as one
segment.  Collects the segment payloads in order. -/
def segLoop : Nat → Major → List Nat → Nat → Nat → List (List Nat) →
    Except BasicError (List (List Nat))
  | 0, _, _, _, _, _ => .error .io
  | fuel + 1, maj, reader, offset, nested, acc =>
    match decTitleLoop (reader.length + 1) reader offset false with
    | .error e => .error e
    | .ok (t, tOff, rest, off') =>
      match tryFromTitle t with
      | .error _ => .error (.synError tOff)
      | .ok h =>
        match h with
        | .Break =>
          if nested = 1 then .ok acc.reverse
          else if 1 < nested then segLoop fuel maj rest off' (nested - 1) acc
          else .error (.synError tOff)
        | _ =>
          match unwrapSeg maj h with
          | .error _ => .error (.synError tOff)
          | .ok none => segLoop fuel maj rest off' (nested + 1) acc
          | .ok (some len) =>
            if rest.length < len then .error .io
            else segLoop fuel maj (rest.drop len) (off' + len) nested (rest.take len :: acc)

/-- Decode one byte/text stream from the front of the input, mirroring
how the deserializer drives `Decoder::bytes`/`Decoder::text` after
pulling the initial header: a definite header yields a single segment
of exactly `len` bytes, an indefinite one enters the `Segments` loop
at nesting depth one. -/
def decodeSegStream (maj : Major) (input : List Nat) : Except BasicError (List (List Nat)) :=
  match decPullHeader ⟨input, 0, none⟩ false with
  | .error e => .error e
  | .ok (h, d) =>
    match unwrapSeg maj h with
    | .error _ => .error (.synError 0)
    | .ok (some len) =>
      if d.reader.length < len then .error .io
      else .ok [d.reader.take len]
    | .ok none => segLoop (d.reader.length + 1) maj d.reader d.offset 1 []

/-! ## The serde deserializer of `src/src/de/mod.rs` -/

/-- `src/src/de/error.rs`: `enum Error` — I/O, syntax at an offset, or
a semantic error with an optional offset and a message. -/
inductive DeError where
  | io
  | synError (offset : Nat)
  | semantic (offset : Option Nat) (msg : String)
deriving DecidableEq, Repr

/-- Lift a low-level decoding error into the deserializer's error type
(`From<crate::basic::Error<T>>`). -/
def DeError.ofBasic : BasicError → DeError
  | .io => .io
  | .synError o => .synError o

/-- `Io::pull` of `src/src/de/mod.rs` (lines 60-87) for a state with an
empty lookahead buffer (the only state the modelled entry points reach
it in): read a title from the wire, reporting reserved selectors as a
syntax error at the title's start, skipping tags when asked. -/
def ioPull (fuel : Nat) (reader : List Nat) (offset : Nat) (skipTag : Bool) :
    Except DeError (Title × Nat × List Nat × Nat) :=
  match decTitleLoop fuel reader offset skipTag with
  | .error e => .error (DeError.ofBasic e)
  | .ok r => .ok r

/-- The UTF-8 well-formedness checker (`core::str::from_utf8` returns
`Ok` exactly on these byte sequences, RFC 3629). -/
def validUtf8 : List Nat → Bool
  | [] => true
  | b :: r =>
    if b ≤ 0x7F then validUtf8 r
    else if 0xC2 ≤ b ∧ b ≤ 0xDF then
      match r with
      | c1 :: r' => decide (0x80 ≤ c1 ∧ c1 ≤ 0xBF) && validUtf8 r'
      | [] => false
    else if b = 0xE0 then
      match r with
      | c1 :: c2 :: r' =>
        decide (0xA0 ≤ c1 ∧ c1 ≤ 0xBF) && decide (0x80 ≤ c2 ∧ c2 ≤ 0xBF) && validUtf8 r'
      | _ => false
    else if (0xE1 ≤ b ∧ b ≤ 0xEC) ∨ b = 0xEE ∨ b = 0xEF then
      match r with
      | c1 :: c2 :: r' =>
        decide (0x80 ≤ c1 ∧ c1 ≤ 0xBF) && decide (0x80 ≤ c2 ∧ c2 ≤ 0xBF) && validUtf8 r'
      | _ => false
    else if b = 0xED then
      match r with
      | c1 :: c2 :: r' =>
        decide (0x80 ≤ c1 ∧ c1 ≤ 0x9F) && decide (0x80 ≤ c2 ∧ c2 ≤ 0xBF) && validUtf8 r'
      | _ => false
    else if b = 0xF0 then
      match r with
      | c1 :: c2 :: c3 :: r' =>
        decide (0x90 ≤ c1 ∧ c1 ≤ 0xBF) && decide (0x80 ≤ c2 ∧ c2 ≤ 0xBF) &&
          decide (0x80 ≤ c3 ∧ c3 ≤ 0xBF) && validUtf8 r'
      | _ => false
    else if 0xF1 ≤ b ∧ b ≤ 0xF3 then
      match r with
      | c1 :: c2 :: c3 :: r' =>
        decide (0x80 ≤ c1 ∧ c1 ≤ 0xBF) && decide (0x80 ≤ c2 ∧ c2 ≤ 0xBF) &&
          decide (0x80 ≤ c3 ∧ c3 ≤ 0xBF) && validUtf8 r'
      | _ => false
    else if b = 0xF4 then
      match r with
      | c1 :: c2 :: c3 :: r' =>
        decide (0x80 ≤ c1 ∧ c1 ≤ 0x8F) && decide (0x80 ≤ c2 ∧ c2 ≤ 0xBF) &&
          decide (0x80 ≤ c3 ∧ c3 ≤ 0xBF) && validUtf8 r'
      | _ => false
    else false

/-- The break title `Title::BREAK`. -/
def breakTitle : Title := ⟨.Other, .More⟩

/-- `Deserializer::chunked` (`src/src/de/mod.rs` lines 96-127)
specialised to the closure of `deserialize_string` (lines 349-367):
pull titles (skipping tags), track the indefinite nesting counter
`chunked`, and for each definite chunk read `len` bytes and validate
them as UTF-8 on their own, failing with a syntax error at the chunk's
title offset otherwise.  Returns the accumulated string bytes, the
remaining input and the offset. -/
def chunkedString : Nat → List Nat → Nat → Nat → List Nat →
    Except DeError (List Nat × List Nat × Nat)
  | 0, _, _, _, _ => .error .io
  | fuel + 1, reader, offset, chunked, acc =>
    match ioPull (reader.length + 1) reader offset true with
    | .error e => .error e
    | .ok (t, tOff, rest, off') =>
      let chunked' := if 0 < chunked ∧ t = breakTitle then chunked - 1 else chunked
      if 0 < chunked ∧ t = breakTitle ∧ chunked' = 0 then .ok (acc, rest, off')
      else if t.maj ≠ .Text then .error (.synError tOff)
      else
        match t.mnr.value? with
        | some len =>
          if rest.length < len then .error .io
          else
            let chunk := rest.take len
            if validUtf8 chunk then
              if chunked' = 0 then .ok (acc ++ chunk, rest.drop len, off' + len)
              else chunkedString fuel (rest.drop len) (off' + len) chunked' (acc ++ chunk)
            else .error (.synError tOff)
        | none => chunkedString fuel rest off' (chunked' + 1) acc

/-- `deserialize_string` driven from a fresh reader
(`from_reader::<String>`): run the chunked text reader over the input
and return the collected UTF-8 bytes. -/
def deserializeString (input : List Nat) : Except DeError (List Nat) :=
  match chunkedString (input.length + 1) input 0 0 [] with
  | .error e => .error e
  | .ok (s, _, _) => .ok s

/-- The per-byte body of `Deserializer::bignum` (`src/src/de/mod.rs`
lines 134-151) over one definite chunk: skip leading zeroes, fail with
a semantic error at the chunk's offset once more than 16 significant
bytes appear, otherwise accumulate big-endian digits.  The state is
the accumulated value and the number of significant bytes (`index`),
an isomorphic rendering of the source's 16-byte buffer. -/
def bignumBytes (tOff : Nat) (msg : String) : List Nat → Nat × Nat →
    Except DeError (Nat × Nat)
  | [], s => .ok s
  | b :: r, (acc, cnt) =>
    if cnt = 0 ∧ b = 0 then bignumBytes tOff msg r (acc, cnt)
    else if 16 ≤ cnt then .error (.semantic (some tOff) msg)
    else bignumBytes tOff msg r (acc * 256 + b, cnt + 1)

/-- `Deserializer::chunked` specialised to the closure of
`Deserializer::bignum`: like `chunkedString` but feeding each definite
chunk through `bignumBytes`. -/
def chunkedBignum : Nat → List Nat → Nat → String → Nat → Nat × Nat →
    Except DeError (Nat × List Nat × Nat)
  | 0, _, _, _, _, _ => .error .io
  | fuel + 1, reader, offset, msg, chunked, st =>
    match ioPull (reader.length + 1) reader offset true with
    | .error e => .error e
    | .ok (t, tOff, rest, off') =>
      let chunked' := if 0 < chunked ∧ t = breakTitle then chunked - 1 else chunked
      if 0 < chunked ∧ t = breakTitle ∧ chunked' = 0 then .ok (st.1, rest, off')
      else if t.maj ≠ .Bytes then .error (.synError tOff)
      else
        match t.mnr.value? with
        | some len =>
          if rest.length < len then .error .io
          else
            match bignumBytes tOff msg (rest.take len) st with
            | .error e => .error e
            | .ok st' =>
              if chunked' = 0 then .ok (st'.1, rest.drop len, off' + len)
              else chunkedBignum fuel (rest.drop len) (off' + len) msg chunked' st'
        | none => chunkedBignum fuel rest off' msg (chunked' + 1) st

/-- `Deserializer::integer::<i128>` (`src/src/de/mod.rs` lines
171-210) driven from a fresh reader (`from_reader::<i128>`): pull a
title without skipping tags; `Title::TAG_BIGPOS`/`TAG_BIGNEG` take the
bignum path with the overflow checks of the source; plain
positive/negative titles decode directly; anything else is a semantic
error.  Returns the decoded value with the remaining input. -/
def deIntegerI128 (input : List Nat) : Except DeError (Int × List Nat) :=
  let msg := "expected i128"
  match ioPull (input.length + 1) input 0 false with
  | .error e => .error e
  | .ok (t, tOff, rest, off') =>
    if t = ⟨.Tag, .This 2⟩ then
      match chunkedBignum (rest.length + 1) rest off' msg 0 (0, 0) with
      | .error e => .error e
      | .ok (raw, rest', _) =>
        if raw < 2 ^ 127 then .ok ((raw : Int), rest')
        else .error (.semantic (some (tOff + 1)) msg)
    else if t = ⟨.Tag, .This 3⟩ then
      match chunkedBignum (rest.length + 1) rest off' msg 0 (0, 0) with
      | .error e => .error e
      | .ok (raw, rest', _) =>
        if 2 ^ 127 ≤ raw then .error (.semantic (some (tOff + 1)) msg)
        else
          let signed : Int := -1 - (raw : Int)
          if -(2 ^ 127) ≤ signed ∧ signed < 2 ^ 127 then .ok (signed, rest')
          else .error (.semantic (some tOff) msg)
    else
      match t with
      | ⟨.Positive, m⟩ =>
        match m.value? with
        | some x =>
          if -(2 ^ 127) ≤ (x : Int) ∧ (x : Int) < 2 ^ 127 then .ok ((x : Int), rest)
          else .error (.semantic (some tOff) msg)
        | none => .error (.synError tOff)
      | ⟨.Negative, m⟩ =>
        match m.value? with
        | some x =>
          let signed : Int := -1 - (x : Int)
          if -(2 ^ 127) ≤ signed ∧ signed < 2 ^ 127 then .ok (signed, rest)
          else .error (.semantic (some tOff) msg)
        | none => .error (.synError tOff)
      | _ => .error (.semantic (some tOff) msg)

/-! ## The serializer of `src/ciborium/src/ser/mod.rs` -/

/-- Strip leading zero bytes (the `while !slice.is_empty() &&
slice[0] == 0` loop of `serialize_i128`). -/
def stripZeros (l : List Nat) : List Nat :=
  l.dropWhile (· = 0)

/-- `serialize_i128` (`src/ciborium/src/ser/mod.rs` lines 167-191):
negative values use tag 3 with magnitude `-1 - v` (`v as u128 ^ !0`);
magnitudes that fit `u64` are emitted as plain positive/negative
headers, larger ones as a big-integer tag, a definite byte-string
header and the magnitude bytes without leading zeros. -/
def serializeI128 (v : Int) : List Nat :=
  let raw : Nat := if v < 0 then (-1 - v).toNat else v.toNat
  if raw < 2 ^ 64 then
    if v < 0 then encodeHeader (.Negative raw) else encodeHeader (.Positive raw)
  else
    let tag : Nat := if v < 0 then 3 else 2
    let slice := stripZeros (beBytes 16 raw)
    encodeHeader (.Tag tag) ++ encodeHeader (.Bytes (some slice.length)) ++ slice

/-- Bytewise lexicographic order on byte strings, the `Ord` instance
of `Vec<u8>` used when sorting cached keys. -/
def bytesLe : List Nat → List Nat → Bool
  | [], _ => true
  | _ :: _, [] => false
  | a :: as_, b :: bs => decide (a < b) || (decide (a = b) && bytesLe as_ bs)

/-- The tuple order on `(key_bytes, value_bytes)` pairs used by
`pairs.sort()` in `end_map!` (Rust's lexicographic `Ord` on tuples of
`Vec<u8>`). -/
def pairLe (a b : List Nat × List Nat) : Bool :=
  if a.1 = b.1 then bytesLe a.2 b.2 else bytesLe a.1 b.1

/-- `SerializeMap::end` in RFC 8949 canonicalization mode (`end_map!`,
`src/ciborium/src/ser/mod.rs` lines 408-474): write the definite map
header for the number of cached keys, then the cached
already-serialized `(key, value)` pairs sorted by the tuple order.
The entries are the zipped caches filled by
`serialize_key`/`serialize_value` (lines 664-700). -/
def endMapRfc8049 (entries : List (List Nat × List Nat)) : List Nat :=
  encodeHeader (.Map (some entries.length)) ++
    ((entries.mergeSort pairLe).map (fun p => p.1 ++ p.2)).flatten

/-! ## The dynamic `Float` value (`src/ciborium/src/value/float.rs`) -/

/-- `struct Float(f64)`, represented by the bit pattern of the stored
`f64`. -/
structure VFloat where
  bits : Nat
deriving DecidableEq, Repr

/-- `f64::is_nan` on a bit pattern: exponent all ones and a nonzero
mantissa. -/
def isNanBits (b : Nat) : Bool :=
  decide (b / 2 ^ 52 % 2 ^ 11 = 2047) && decide (b % 2 ^ 52 ≠ 0)

/-- `PartialEq for Float` (lines 61-66): bit-pattern equality. -/
def vfloatEq (a b : VFloat) : Bool :=
  decide (a.bits = b.bits)

/-- `partial_cmp(..).unwrap()` on two non-NaN `f64` values, computed
from the bit patterns: both zeros compare equal regardless of sign,
otherwise compare by sign and then by magnitude (reversed for
negatives).  This is exactly IEEE-754 value comparison for non-NaN
operands. -/
def f64ValueCmp (a b : Nat) : Ordering :=
  let sa := a / 2 ^ 63
  let sb := b / 2 ^ 63
  let ma := a % 2 ^ 63
  let mb := b % 2 ^ 63
  if ma = 0 ∧ mb = 0 then .eq
  else if sa = sb then
    if ma = mb then .eq
    else if sa = 0 then (if ma < mb then .lt else .gt)
    else (if ma < mb then .gt else .lt)
  else if sa = 1 then .lt
  else .gt

/-- `Ord for Float` (lines 68-78): NaNs are greater than every
non-NaN and equal to each other; non-NaNs use `partial_cmp`. -/
def vfloatCmp (a b : VFloat) : Ordering :=
  match isNanBits a.bits, isNanBits b.bits with
  | false, false => f64ValueCmp a.bits b.bits
  | false, true => .lt
  | true, true => .eq
  | true, false => .gt

/-! ## The recursion-limited deserializer (spec model, claim C1) -/

/-- The error taxonomy of spec §6.4, including the distinguished
`RecursionLimitExceeded` variant. -/
inductive CError where
  | io
  | synError (offset : Nat)
  | semantic (msg : String)
  | recursionLimitExceeded
deriving DecidableEq, Repr

/-- Read one `Header` from the front of the input using the shared
wire layer (offsets are not tracked by this model). -/
def specHeader (input : List Nat) : Except CError (Header × List Nat) :=
  match decTitleLoop (input.length + 1) input 0 false with
  | .error .io => .error .io
  | .error (.synError o) => .error (.synError o)
  | .ok (t, _, rest, _) =>
    match tryFromTitle t with
    | .ok h => .ok (h, rest)
    | .error _ => .error (.synError 0)

mutual

/-- Modelled from the spec: the serde deserializer of the released
`ciborium` crate (its `de` module with the recursion limit) is not
present under `src/` — only its tests are (`tests/recursion.rs`,
`ciborium/tests/error.rs`).  Following spec §4.9, `specItem` consumes
one data item in `deserialize_any` style: tags are skipped, scalars
are leaves, strings consume their payload, and each `Array`/`Map`
access decrements the recursion counter on entry (restored on exit by
returning to the caller's `depth`), failing with
`RecursionLimitExceeded` when the counter is exhausted.  The fuel
argument only bounds the number of steps (each step consumes input). -/
def specItem : Nat → List Nat → Nat → Except CError (List Nat)
  | 0, _, _ => .error .io
  | fuel + 1, input, depth =>
    match specHeader input with
    | .error e => .error e
    | .ok (h, rest) =>
      match h with
      | .Positive _ => .ok rest
      | .Negative _ => .ok rest
      | .Float _ => .ok rest
      | .Simple x => if x = 20 ∨ x = 21 ∨ x = 22 ∨ x = 23 then .ok rest
                     else .error (.semantic "unknown simple value")
      | .Break => .error (.semantic "invalid type: break, expected non-break")
      | .Tag _ => specItem fuel rest depth
      | .Bytes (some len) =>
        if rest.length < len then .error .io else .ok (rest.drop len)
      | .Text (some len) =>
        if rest.length < len then .error .io else .ok (rest.drop len)
      | .Bytes none => specChunks fuel .Bytes rest
      | .Text none => specChunks fuel .Text rest
      | .Array none =>
        if depth = 0 then .error .recursionLimitExceeded
        else specSeq fuel rest (depth - 1)
      | .Array (some n) =>
        if depth = 0 then .error .recursionLimitExceeded
        else specCount fuel n rest (depth - 1)
      | .Map none =>
        if depth = 0 then .error .recursionLimitExceeded
        else specSeq fuel rest (depth - 1)
      | .Map (some n) =>
        if depth = 0 then .error .recursionLimitExceeded
        else specCount fuel (2 * n) rest (depth - 1)

/-- Modelled from the spec (see `specItem`): the indefinite-length
sequence/map accessor — stop at `Break`, otherwise deserialize the
next element (the peeked header is pushed back, so the element starts
at the same input). -/
def specSeq : Nat → List Nat → Nat → Except CError (List Nat)
  | 0, _, _ => .error .io
  | fuel + 1, input, depth =>
    match specHeader input with
    | .error e => .error e
    | .ok (.Break, rest) => .ok rest
    | .ok (_, _) =>
      match specItem fuel input depth with
      | .error e => .error e
      | .ok rest' => specSeq fuel rest' depth

/-- Modelled from the spec (see `specItem`): the definite-length
accessor, deserializing exactly `n` items. -/
def specCount : Nat → Nat → List Nat → Nat → Except CError (List Nat)
  | 0, _, _, _ => .error .io
  | _ + 1, 0, input, _ => .ok input
  | fuel + 1, n + 1, input, depth =>
    match specItem fuel input depth with
    | .error e => .error e
    | .ok rest => specCount fuel n rest depth

/-- Modelled from the spec (see `specItem`): the chunk loop of an
indefinite byte/text string — definite same-major chunks until
`Break`. -/
def specChunks : Nat → Major → List Nat → Except CError (List Nat)
  | 0, _, _ => .error .io
  | fuel + 1, maj, input =>
    match specHeader input with
    | .error e => .error e
    | .ok (.Break, rest) => .ok rest
    | .ok (.Bytes (some len), rest) =>
      if maj = .Bytes then
        if rest.length < len then .error .io else specChunks fuel maj (rest.drop len)
      else .error (.synError 0)
    | .ok (.Text (some len), rest) =>
      if maj = .Text then
        if rest.length < len then .error .io else specChunks fuel maj (rest.drop len)
      else .error (.synError 0)
    | .ok (_, _) => .error (.synError 0)

end

/-- Modelled from the spec: `from_reader::<Value>` of the released
`ciborium` crate — deserialize one item with the recursion counter
initialized to 256 (spec §4.9).  The fuel `2 * input.length + 4`
bounds the number of steps, each of which consumes input. -/
def specFromReader (input : List Nat) : Except CError (List Nat) :=
  specItem (2 * input.length + 4) input 256

/-! ## Helper lemmas -/

theorem beBytes_length (n x : Nat) : (beBytes n x).length = n := by
  induction n generalizing x with
  | zero => rfl
  | succ n ih => simp [beBytes, ih]

theorem fromBE_aux (n x acc : Nat) :
    List.foldl (fun a b => a * 256 + b) acc (beBytes n x) =
      acc * 2 ^ (8 * n) + x % 2 ^ (8 * n) := by
  induction n generalizing acc with
  | zero => simp [beBytes, Nat.mod_one]
  | succ n ih =>
    have hsplit : x % (2 ^ (8 * n) * 256) =
        x % 2 ^ (8 * n) + 2 ^ (8 * n) * (x / 2 ^ (8 * n) % 256) := Nat.mod_mul
    have hpow : 2 ^ (8 * (n + 1)) = 2 ^ (8 * n) * 256 := by
      rw [Nat.mul_succ, pow_add]; norm_num
    simp only [beBytes, List.foldl_cons, ih, hpow, hsplit]
    ring

theorem fromBE_beBytes {n x : Nat} (h : x < 2 ^ (8 * n)) :
    fromBE (beBytes n x) = x := by
  have := fromBE_aux n x 0
  simpa [fromBE, Nat.mod_eq_of_lt h] using this

theorem fromBE_stripZeros (l : List Nat) : fromBE (stripZeros l) = fromBE l := by
  induction l with
  | nil => rfl
  | cons b t ih =>
    by_cases hb : b = 0
    · subst hb
      simpa [stripZeros, List.dropWhile, fromBE] using ih
    · simp [stripZeros, List.dropWhile, hb]

theorem stripZeros_head {l : List Nat} {h : Nat}
    (hh : (stripZeros l).head? = some h) : h ≠ 0 := by
  induction l with
  | nil => simp [stripZeros] at hh
  | cons b t ih =>
    by_cases hb : b = 0
    · subst hb
      exact ih (by simpa [stripZeros, List.dropWhile] using hh)
    · simp [stripZeros, List.dropWhile, hb] at hh
      omega

theorem stripZeros_length_le (l : List Nat) : (stripZeros l).length ≤ l.length :=
  (List.dropWhile_sublist _).length_le

theorem majorOfBits_bits (maj : Major) : majorOfBits maj.bits = maj := by
  cases maj <;> rfl

theorem Major.bits_le (maj : Major) : maj.bits ≤ 7 := by
  cases maj <;> simp [Major.bits]

theorem Minor.affixLen_le (m : Minor) : m.affixLen ≤ 8 := by
  cases m <;> simp [Minor.affixLen]

theorem minorFromU64_WF {x : Nat} (h : x < 2 ^ 64) : (minorFromU64 x).WF := by
  unfold minorFromU64
  split_ifs <;> simp [Minor.WF] <;> omega

theorem minorFromU64_value (x : Nat) : (minorFromU64 x).value? = some x := by
  unfold minorFromU64
  split_ifs <;> rfl

/-- Parsing an encoded title from the front of the stream returns it
unchanged (the wire layer round-trip), provided the title is
well-formed and is not a tag that the parser was asked to skip. -/
theorem decTitleLoop_encode (fuel : Nat) (t : Title) (rest : List Nat) (off : Nat)
    (skipTag : Bool) (hwf : t.mnr.WF) (h : t.maj ≠ .Tag ∨ skipTag = false) :
    decTitleLoop (fuel + 1) (encodeTitle t ++ rest) off skipTag =
      .ok (t, off, rest, off + 1 + t.mnr.affixLen) := by
  obtain ⟨maj, mnr⟩ := t
  have hskip : ¬(maj = .Tag ∧ skipTag = true) := by
    rcases h with h | h
    · exact fun hc => h hc.1
    · exact fun hc => by simp [h] at hc
  cases mnr with
  | This x =>
    have hx : x < 24 := hwf
    have h1 : (maj.bits * 32 + x) / 32 = maj.bits := by omega
    have h2 : (maj.bits * 32 + x) % 32 = x := by omega
    simp [decTitleLoop, encodeTitle, Minor.sel, Minor.affixBytes, Minor.affixLen,
      h1, h2, majorOfBits_bits, hx, hskip]
  | Next1 x =>
    have h1 : (maj.bits * 32 + 24) / 32 = maj.bits := by omega
    have h2 : (maj.bits * 32 + 24) % 32 = 24 := by omega
    have hlen : (beBytes 1 x).length = 1 := beBytes_length 1 x
    have hge : ¬((beBytes 1 x ++ rest).length < 1) := by
      simp [List.length_append, hlen]
    simp [decTitleLoop, encodeTitle, Minor.sel, Minor.affixBytes, Minor.affixLen,
      h1, h2, majorOfBits_bits, hskip, hge, List.take_left' hlen, List.drop_left' hlen,
      fromBE_beBytes (n := 1) hwf] <;>
      first
        | omega
        | (intro he
           rw [he] at hlen
           simp at hlen)
  | Next2 x =>
    have h1 : (maj.bits * 32 + 25) / 32 = maj.bits := by omega
    have h2 : (maj.bits * 32 + 25) % 32 = 25 := by omega
    have hlen : (beBytes 2 x).length = 2 := beBytes_length 2 x
    have hge : ¬((beBytes 2 x ++ rest).length < 2) := by
      simp [List.length_append, hlen]
    simp [decTitleLoop, encodeTitle, Minor.sel, Minor.affixBytes, Minor.affixLen,
      h1, h2, majorOfBits_bits, hskip, hge, List.take_left' hlen, List.drop_left' hlen,
      fromBE_beBytes (n := 2) hwf] <;>
      first
        | omega
        | (intro he
           rw [he] at hlen
           simp at hlen)
  | Next4 x =>
    have h1 : (maj.bits * 32 + 26) / 32 = maj.bits := by omega
    have h2 : (maj.bits * 32 + 26) % 32 = 26 := by omega
    have hlen : (beBytes 4 x).length = 4 := beBytes_length 4 x
    have hge : ¬((beBytes 4 x ++ rest).length < 4) := by
      simp [List.length_append, hlen]
    simp [decTitleLoop, encodeTitle, Minor.sel, Minor.affixBytes, Minor.affixLen,
      h1, h2, majorOfBits_bits, hskip, hge, List.take_left' hlen, List.drop_left' hlen,
      fromBE_beBytes (n := 4) hwf] <;>
      first
        | omega
        | (intro he
           rw [he] at hlen
           simp at hlen)
  | Next8 x =>
    have h1 : (maj.bits * 32 + 27) / 32 = maj.bits := by omega
    have h2 : (maj.bits * 32 + 27) % 32 = 27 := by omega
    have hlen : (beBytes 8 x).length = 8 := beBytes_length 8 x
    have hge : ¬((beBytes 8 x ++ rest).length < 8) := by
      simp [List.length_append, hlen]
    simp [decTitleLoop, encodeTitle, Minor.sel, Minor.affixBytes, Minor.affixLen,
      h1, h2, majorOfBits_bits, hskip, hge, List.take_left' hlen, List.drop_left' hlen,
      fromBE_beBytes (n := 8) hwf] <;>
      first
        | omega
        | (intro he
           rw [he] at hlen
           simp at hlen)
  | More =>
    have h1 : (maj.bits * 32 + 31) / 32 = maj.bits := by omega
    have h2 : (maj.bits * 32 + 31) % 32 = 31 := by omega
    simp [decTitleLoop, encodeTitle, Minor.sel, Minor.affixBytes, Minor.affixLen,
      h1, h2, majorOfBits_bits, hskip]

/-- `ioPull` version of `decTitleLoop_encode`. -/
theorem ioPull_encode (fuel : Nat) (t : Title) (rest : List Nat) (off : Nat)
    (skipTag : Bool) (hwf : t.mnr.WF) (h : t.maj ≠ .Tag ∨ skipTag = false) :
    ioPull (fuel + 1) (encodeTitle t ++ rest) off skipTag =
      .ok (t, off, rest, off + 1 + t.mnr.affixLen) := by
  simp [ioPull, decTitleLoop_encode fuel t rest off skipTag hwf h]

/-- Reading the header of an indefinite-length array start byte
(`0x9f`). -/
theorem specHeader_9f (tail : List Nat) :
    specHeader ((0x9f : Nat) :: tail) = .ok (.Array none, tail) := by
  simp [specHeader, decTitleLoop, majorOfBits, tryFromTitle, Minor.value?]

/-- On a stream of `0x9f` bytes longer than the remaining recursion
budget, the spec-modelled deserializer fails with the recursion limit
error. -/
theorem specItem_replicate_rle (d : Nat) : ∀ k f, d + 1 ≤ k → 2 * d + 3 ≤ f →
    specItem f (List.replicate k (0x9f : Nat)) d = .error .recursionLimitExceeded := by
  induction d with
  | zero =>
    intro k f hk hf
    obtain ⟨k', rfl⟩ : ∃ k', k = k' + 1 := ⟨k - 1, by omega⟩
    obtain ⟨f', rfl⟩ : ∃ f', f = f' + 1 := ⟨f - 1, by omega⟩
    rw [List.replicate_succ]
    simp [specItem, specHeader_9f]
  | succ d ih =>
    intro k f hk hf
    obtain ⟨k', rfl⟩ : ∃ k', k = k' + 1 := ⟨k - 1, by omega⟩
    obtain ⟨f1, rfl⟩ : ∃ f1, f = f1 + 1 := ⟨f - 1, by omega⟩
    obtain ⟨f2, rfl⟩ : ∃ f2, f1 = f2 + 1 := ⟨f1 - 1, by omega⟩
    obtain ⟨k'', hk''⟩ : ∃ k'', k' = k'' + 1 := ⟨k' - 1, by omega⟩
    have hrec : specItem f2 (List.replicate k' (0x9f : Nat)) d =
        .error .recursionLimitExceeded := ih k' f2 (by omega) (by omega)
    have hhd : specHeader (List.replicate k' (0x9f : Nat)) =
        .ok (.Array none, List.replicate k'' (0x9f : Nat)) := by
      rw [hk'', List.replicate_succ, specHeader_9f]
    rw [List.replicate_succ]
    simp [specItem, specSeq, specHeader_9f, hhd, hrec]

/-! ## Claim theorems -/

/-- C1 (confirmed, spec-modelled): deserializing 128 KiB of `0x9f`
bytes (indefinite array starts) with the recursion-limited
deserializer modelled from spec §4.9 fails with the distinguished
`RecursionLimitExceeded` error: the counter starts at 256, is
decremented on entering each Array/Map access, and the 257th nested
opening exhausts it long before the input does. -/
theorem claim1_recursion_limit :
    specFromReader (List.replicate (128 * 1024) (0x9f : Nat)) =
      .error .recursionLimitExceeded := by
  have h := specItem_replicate_rle 256 (128 * 1024) (2 * (128 * 1024) + 4)
    (by norm_num) (by norm_num)
  unfold specFromReader
  rw [List.length_replicate]
  exact h

/-- C2 (code_bug evaluation): the segment reader does NOT reject an
indefinite-length sub-item inside an indefinite byte/text stream — it
increments the nesting counter and carries on.  On `5f 5f 41 00 ff ff`
(and on the text twin `7f 7f 61 41 ff ff`) the stream decodes
successfully to one segment instead of returning the syntax error the
claim (and the repository's commented-out test) expects. -/
theorem claim2_nested_indefinite_accepted :
    decodeSegStream .Bytes [0x5f, 0x5f, 0x41, 0x00, 0xff, 0xff] = .ok [[0x00]] ∧
    decodeSegStream .Text [0x7f, 0x7f, 0x61, 0x41, 0xff, 0xff] = .ok [[0x41]] := by
  constructor <;> rfl

/-- C3 (counterexample): the indefinite text stream
`7f 61 C3 61 A9 ff` splits the two-byte UTF-8 code point `C3 A9`
across two definite chunks; the concatenation is valid UTF-8, yet
deserializing the stream as text fails with a syntax error at the
first chunk (offset 1) instead of succeeding as the claim states. -/
theorem claim3_counterexample :
    validUtf8 ([0xC3] ++ [0xA9]) = true ∧
    deserializeString [0x7f, 0x61, 0xC3, 0x61, 0xA9, 0xff] =
      .error (.synError 1) := by
  constructor <;> rfl

/-- `ioPull_encode` for any positive fuel. -/
theorem ioPull_encode' (fuel : Nat) (hf : 1 ≤ fuel) (t : Title) (rest : List Nat)
    (off : Nat) (skipTag : Bool) (hwf : t.mnr.WF) (h : t.maj ≠ .Tag ∨ skipTag = false) :
    ioPull fuel (encodeTitle t ++ rest) off skipTag =
      .ok (t, off, rest, off + 1 + t.mnr.affixLen) := by
  obtain ⟨f', rfl⟩ : ∃ f', fuel = f' + 1 := ⟨fuel - 1, by omega⟩
  exact ioPull_encode f' t rest off skipTag hwf h

/-- One step of the chunked text reader on an indefinite-length text
header (`0x7f`): the nesting counter is incremented. -/
theorem chunkedString_indef (fuel : Nat) (rest : List Nat) (offset chunked : Nat)
    (acc : List Nat) :
    chunkedString (fuel + 1) ((0x7f : Nat) :: rest) offset chunked acc =
      chunkedString fuel rest (offset + 1) (chunked + 1) acc := by
  have hpull : ioPull (((0x7f : Nat) :: rest).length + 1) ((0x7f : Nat) :: rest) offset true =
      .ok (⟨.Text, .More⟩, offset, rest, offset + 1) := by
    have h := ioPull_encode' (((0x7f : Nat) :: rest).length + 1) (by omega)
      ⟨.Text, .More⟩ rest offset true trivial (Or.inl (by simp))
    simpa [encodeTitle, Minor.sel, Minor.affixBytes, Major.bits, Minor.affixLen] using h
  simp only [chunkedString, hpull]
  simp [breakTitle, Minor.value?]

/-- One step of the chunked text reader on a definite chunk: the chunk
is validated on its own; on success it is appended (terminating when no
indefinite nesting is open), on failure the syntax error points at the
chunk's title offset. -/
theorem chunkedString_chunk (fuel : Nat) (c rest : List Nat) (offset chunked : Nat)
    (acc : List Nat) (hlen : c.length < 2 ^ 64) :
    chunkedString (fuel + 1) (encodeHeader (.Text (some c.length)) ++ (c ++ rest))
        offset chunked acc =
      if validUtf8 c then
        if chunked = 0 then
          .ok (acc ++ c, rest, offset + 1 + (minorFromU64 c.length).affixLen + c.length)
        else
          chunkedString fuel rest (offset + 1 + (minorFromU64 c.length).affixLen + c.length)
            chunked (acc ++ c)
      else .error (.synError offset) := by
  have hpull : ioPull ((encodeHeader (.Text (some c.length)) ++ (c ++ rest)).length + 1)
      (encodeHeader (.Text (some c.length)) ++ (c ++ rest)) offset true =
      .ok (⟨.Text, minorFromU64 c.length⟩, offset, c ++ rest,
        offset + 1 + (minorFromU64 c.length).affixLen) := by
    have h := ioPull_encode' ((encodeHeader (.Text (some c.length)) ++ (c ++ rest)).length + 1)
      (by omega) ⟨.Text, minorFromU64 c.length⟩ (c ++ rest) offset true
      (minorFromU64_WF hlen) (Or.inl (by simp))
    exact h
  have hlen1 : ¬((c ++ rest).length < c.length) := by
    simp [List.length_append]
  simp only [chunkedString, hpull]
  simp only [show ((⟨.Text, minorFromU64 c.length⟩ : Title) = breakTitle) = False from by
    simp [breakTitle], and_false, false_and, if_false, ite_false]
  simp only [show ¬((⟨.Text, minorFromU64 c.length⟩ : Title).maj ≠ Major.Text) from by simp,
    if_false, ite_false]
  simp only [minorFromU64_value]
  simp only [hlen1, if_false, ite_false, List.take_left' rfl, List.drop_left' rfl]

/-- C3 (amended): for every indefinite text stream of two definite
chunks whose boundary splits a UTF-8 code point (the concatenation is
valid UTF-8, the first chunk on its own is not), deserializing the
stream as text FAILS with a syntax error at the first chunk's offset:
`deserialize_string` validates every chunk independently, and the
3-byte stash of the segment parser only spans reads within a single
chunk. -/
theorem claim3_amended (c1 c2 : List Nat)
    (h1 : c1.length < 2 ^ 64) (h2 : c2.length < 2 ^ 64)
    (hcat : validUtf8 (c1 ++ c2) = true) (hc1 : validUtf8 c1 = false) :
    deserializeString ((0x7f : Nat) ::
        (encodeHeader (.Text (some c1.length)) ++
          (c1 ++ (encodeHeader (.Text (some c2.length)) ++ (c2 ++ [0xff]))))) =
      .error (.synError 1) := by
  simp only [deserializeString, List.length_cons]
  rw [chunkedString_indef]
  rw [chunkedString_chunk _ c1 _ 1 1 [] h1]
  simp [hc1]

/-- C3 witness: the amended claim at the concrete two-chunk stream
`7f 61 C3 61 A9 ff` (the code point `C3 A9` split across the chunk
boundary). -/
theorem claim3_witness :
    deserializeString ((0x7f : Nat) ::
        (encodeHeader (.Text (some [0xC3].length)) ++
          ([0xC3] ++ (encodeHeader (.Text (some [0xA9].length)) ++ ([0xA9] ++ [0xff]))))) =
      .error (.synError 1) :=
  claim3_amended [0xC3] [0xA9] (by norm_num) (by norm_num) (by decide) (by decide)

/-- After the first significant byte, `bignumBytes` accumulates
big-endian digits while counting them. -/
theorem bignumBytes_pos (tOff : Nat) (msg : String) :
    ∀ (l : List Nat) (acc cnt : Nat), 1 ≤ cnt → cnt + l.length ≤ 16 →
      bignumBytes tOff msg l (acc, cnt) =
        .ok (l.foldl (fun a b => a * 256 + b) acc, cnt + l.length) := by
  intro l
  induction l with
  | nil => intro acc cnt h1 h16; simp [bignumBytes]
  | cons b r ih =>
    intro acc cnt h1 h16
    have hc0 : ¬(cnt = 0 ∧ b = 0) := by omega
    have hc16 : ¬(16 ≤ cnt) := by simp at h16; omega
    simp only [bignumBytes, if_neg hc0, if_neg hc16]
    rw [ih (acc * 256 + b) (cnt + 1) (by omega) (by simp at h16 ⊢; omega)]
    simp only [List.foldl_cons]
    congr 1
    simp
    omega

/-- On a zero-stripped magnitude of at most 16 bytes, the bignum byte
loop returns its big-endian value. -/
theorem bignumBytes_stripped (tOff : Nat) (msg : String) (mag : List Nat)
    (hh : ∀ hd, mag.head? = some hd → hd ≠ 0) (hlen : mag.length ≤ 16) :
    bignumBytes tOff msg mag (0, 0) = .ok (fromBE mag, mag.length) := by
  cases mag with
  | nil => simp [bignumBytes, fromBE]
  | cons h t =>
    have hne : h ≠ 0 := hh h rfl
    simp only [bignumBytes, hne, and_false, if_false, ite_false, and_true]
    rw [if_neg (by omega : ¬(16 ≤ (0 : Nat)))]
    rw [bignumBytes_pos tOff msg t (0 * 256 + h) 1 (by omega)
      (by simp at hlen ⊢; omega)]
    simp [fromBE, Nat.add_comm]

/-- The bignum chunk loop on a single definite byte-string chunk:
process the payload and stop. -/
theorem chunkedBignum_single (fuel : Nat) (reader c rest : List Nat) (offset : Nat)
    (msg : String) (st : Nat × Nat)
    (hr : reader = encodeHeader (.Bytes (some c.length)) ++ (c ++ rest))
    (hlen : c.length < 2 ^ 64) :
    chunkedBignum (fuel + 1) reader offset msg 0 st =
      match bignumBytes offset msg c st with
      | .error e => .error e
      | .ok st' => .ok (st'.1, rest,
          offset + 1 + (minorFromU64 c.length).affixLen + c.length) := by
  subst hr
  have hpull : ioPull ((encodeHeader (.Bytes (some c.length)) ++ (c ++ rest)).length + 1)
      (encodeHeader (.Bytes (some c.length)) ++ (c ++ rest)) offset true =
      .ok (⟨.Bytes, minorFromU64 c.length⟩, offset, c ++ rest,
        offset + 1 + (minorFromU64 c.length).affixLen) := by
    exact ioPull_encode' _ (by omega) ⟨.Bytes, minorFromU64 c.length⟩ (c ++ rest) offset true
      (minorFromU64_WF hlen) (Or.inl (by simp))
  have hlen1 : ¬((c ++ rest).length < c.length) := by
    simp [List.length_append]
  simp only [chunkedBignum, hpull]
  simp only [show ((⟨.Bytes, minorFromU64 c.length⟩ : Title) = breakTitle) = False from by
    simp [breakTitle], and_false, false_and, if_false, ite_false]
  simp only [show ¬((⟨.Bytes, minorFromU64 c.length⟩ : Title).maj ≠ Major.Bytes) from by simp,
    if_false, ite_false]
  simp only [minorFromU64_value]
  simp only [hlen1, if_false, ite_false, List.take_left' rfl, List.drop_left' rfl]
  simp

/-- C5 (counterexample): at `v = -(2^64)` (so `|v| = 2^64`, inside the
claim's domain) `serialize_i128` does NOT emit `Tag(3)`: the magnitude
`-1 - v = 2^64 - 1` still fits `u64`, so a plain one-item `Negative`
header `3b ff ff ff ff ff ff ff ff` is written instead. -/
theorem claim5_counterexample :
    serializeI128 (-(2 ^ 64)) = [0x3b, 0xff, 0xff, 0xff, 0xff, 0xff, 0xff, 0xff, 0xff] ∧
    (serializeI128 (-(2 ^ 64))).take 1 ≠ encodeHeader (.Tag 3) := by
  constructor <;> decide

/-- C5 (amended): for every `i128` value `v` with `v ≥ 2^64` or
`v < -(2^64)` (note the strict bound: `v = -(2^64)` itself still fits
the plain `Negative` encoding), serialization emits `Tag(2)` (for
`v ≥ 0`) or `Tag(3)` (for `v < 0`) followed by a definite byte string
holding the big-endian magnitude (`-1 - v` for negative `v`) with no
leading zero bytes, and deserializing that encoding as `i128`
reconstructs `v` exactly. -/
theorem claim5_amended (v : Int)
    (h : (2 ^ 64 ≤ v ∧ v < 2 ^ 127) ∨ (-(2 ^ 127) ≤ v ∧ v < -(2 ^ 64))) :
    ∃ mag : List Nat,
      serializeI128 v =
        encodeHeader (.Tag (if 0 ≤ v then 2 else 3)) ++
          encodeHeader (.Bytes (some mag.length)) ++ mag ∧
      fromBE mag = (if 0 ≤ v then v else -1 - v).toNat ∧
      (∀ hd, mag.head? = some hd → hd ≠ 0) ∧
      deIntegerI128 (serializeI128 v) = .ok (v, []) := by
  have hraw0 : (if v < 0 then (-1 - v).toNat else v.toNat) < 2 ^ 128 ∧
      2 ^ 64 ≤ (if v < 0 then (-1 - v).toNat else v.toNat) ∧
      (if v < 0 then (-1 - v).toNat else v.toNat) < 2 ^ 127 := by
    rcases h with ⟨ha, hb⟩ | ⟨ha, hb⟩ <;> split_ifs <;> omega
  set raw : Nat := if v < 0 then (-1 - v).toNat else v.toNat with hraw
  obtain ⟨hraw128, hraw64, hraw127⟩ := hraw0
  set mag := stripZeros (beBytes 16 raw) with hmag
  have hfrom : fromBE mag = raw := by
    rw [hmag, fromBE_stripZeros]
    exact fromBE_beBytes (by norm_num; exact hraw128)
  have hmlen : mag.length ≤ 16 := by
    rw [hmag]
    exact le_trans (stripZeros_length_le _) (by rw [beBytes_length])
  have hhd : ∀ hd, mag.head? = some hd → hd ≠ 0 := fun hd hh => stripZeros_head hh
  have hmlen64 : mag.length < 2 ^ 64 := by omega
  have hnot64 : ¬(raw < 2 ^ 64) := by omega
  have hser : serializeI128 v =
      encodeHeader (.Tag (if v < 0 then 3 else 2)) ++
        encodeHeader (.Bytes (some mag.length)) ++ mag := by
    simp only [serializeI128, ← hraw, ← hmag, if_neg hnot64]
  have hbig := bignumBytes_stripped 1 "expected i128" mag hhd hmlen
  rcases h with ⟨hge, hlt⟩ | ⟨hgel, hltl⟩
  · -- positive branch: tag 2
    have hpos : 0 ≤ v := le_trans (by norm_num) hge
    have hnneg : ¬(v < 0) := not_lt.mpr hpos
    have hrawv : (raw : Int) = v := by
      rw [hraw, if_neg hnneg]
      exact Int.toNat_of_nonneg hpos
    refine ⟨mag, ?_, ?_, hhd, ?_⟩
    · rw [hser, if_neg hnneg, if_pos hpos]
    · rw [hfrom, if_pos hpos, hraw, if_neg hnneg]
    · have hS : serializeI128 v =
          encodeTitle ⟨.Tag, .This 2⟩ ++
            (encodeHeader (.Bytes (some mag.length)) ++ mag) := by
        rw [hser, if_neg hnneg, List.append_assoc]
        rfl
      rw [hS]
      have hpull : ioPull ((encodeTitle ⟨.Tag, .This 2⟩ ++
          (encodeHeader (.Bytes (some mag.length)) ++ mag)).length + 1)
          (encodeTitle ⟨.Tag, .This 2⟩ ++
            (encodeHeader (.Bytes (some mag.length)) ++ mag)) 0 false =
          .ok (⟨.Tag, .This 2⟩, 0, encodeHeader (.Bytes (some mag.length)) ++ mag, 1) := by
        have h := ioPull_encode'
          ((encodeTitle ⟨.Tag, .This 2⟩ ++
            (encodeHeader (.Bytes (some mag.length)) ++ mag)).length + 1)
          (by omega) ⟨.Tag, .This 2⟩
          (encodeHeader (.Bytes (some mag.length)) ++ mag) 0 false
          (by norm_num [Minor.WF]) (Or.inr rfl)
        simpa [Minor.affixLen] using h
      simp only [deIntegerI128, hpull, eq_self_iff_true, if_true]
      rw [chunkedBignum_single ((encodeHeader (.Bytes (some mag.length)) ++ mag).length)
        (encodeHeader (.Bytes (some mag.length)) ++ mag) mag [] 1 "expected i128" (0, 0)
        (by simp) hmlen64]
      rw [hbig]
      simp [hfrom, hrawv]
      all_goals omega
  · -- negative branch: tag 3
    have hneg : v < 0 := by omega
    have hrawv : (raw : Int) = -1 - v := by
      rw [hraw, if_pos hneg]
      exact Int.toNat_of_nonneg (by omega)
    refine ⟨mag, ?_, ?_, hhd, ?_⟩
    · rw [hser, if_pos hneg, if_neg (not_le.mpr hneg)]
    · rw [hfrom, if_neg (not_le.mpr hneg), hraw, if_pos hneg]
    · have hS : serializeI128 v =
          encodeTitle ⟨.Tag, .This 3⟩ ++
            (encodeHeader (.Bytes (some mag.length)) ++ mag) := by
        rw [hser, if_pos hneg, List.append_assoc]
        rfl
      rw [hS]
      have hpull : ioPull ((encodeTitle ⟨.Tag, .This 3⟩ ++
          (encodeHeader (.Bytes (some mag.length)) ++ mag)).length + 1)
          (encodeTitle ⟨.Tag, .This 3⟩ ++
            (encodeHeader (.Bytes (some mag.length)) ++ mag)) 0 false =
          .ok (⟨.Tag, .This 3⟩, 0, encodeHeader (.Bytes (some mag.length)) ++ mag, 1) := by
        have h := ioPull_encode'
          ((encodeTitle ⟨.Tag, .This 3⟩ ++
            (encodeHeader (.Bytes (some mag.length)) ++ mag)).length + 1)
          (by omega) ⟨.Tag, .This 3⟩
          (encodeHeader (.Bytes (some mag.length)) ++ mag) 0 false
          (by norm_num [Minor.WF]) (Or.inr rfl)
        simpa [Minor.affixLen] using h
      simp only [deIntegerI128, hpull, eq_self_iff_true, if_true]
      rw [if_neg (by decide : ¬((⟨.Tag, .This 3⟩ : Title) = ⟨.Tag, .This 2⟩))]
      rw [chunkedBignum_single ((encodeHeader (.Bytes (some mag.length)) ++ mag).length)
        (encodeHeader (.Bytes (some mag.length)) ++ mag) mag [] 1 "expected i128" (0, 0)
        (by simp) hmlen64]
      rw [hbig]
      have hnle : ¬(2 ^ 127 ≤ fromBE mag) := by rw [hfrom]; omega
      have hsig : (-1 - ((fromBE mag : Nat) : Int)) = v := by rw [hfrom, hrawv]; ring
      simp only [hnle, if_false, ite_false, hsig]
      rw [if_pos (show -(2 ^ 127) ≤ v ∧ v < 2 ^ 127 from ⟨hgel, by omega⟩)]

/-- C5 witness: the amended round-trip at `v = 2^64`. -/
theorem claim5_witness :
    ∃ mag : List Nat,
      serializeI128 (2 ^ 64) =
        encodeHeader (.Tag (if 0 ≤ (2 ^ 64 : Int) then 2 else 3)) ++
          encodeHeader (.Bytes (some mag.length)) ++ mag ∧
      fromBE mag = (if 0 ≤ (2 ^ 64 : Int) then (2 ^ 64 : Int) else -1 - 2 ^ 64).toNat ∧
      (∀ hd, mag.head? = some hd → hd ≠ 0) ∧
      deIntegerI128 (serializeI128 (2 ^ 64)) = .ok (2 ^ 64, []) :=
  claim5_amended (2 ^ 64) (Or.inl ⟨le_refl _, by norm_num⟩)

/-- C4 (counterexample): converting the two-byte simple-value title
`f8 00` (affix byte 0) to a `Header` succeeds as `Simple(0)`, whereas
the claim states the conversion fails for every affix in `0..=23`; the
same holds for affix 28 from the claimed reserved range `28..=31`. -/
theorem claim4_counterexample :
    tryFromTitle ⟨.Other, .Next1 0⟩ = .ok (.Simple 0) ∧
    tryFromTitle ⟨.Other, .Next1 28⟩ = .ok (.Simple 28) := by
  constructor <;> rfl

/-- C4 (amended): `TryFrom<Title> for Header` performs no reserved-range
check on the one-byte affix form: for every `nn` in `0..=255` the
title `(Other, Next1 nn)` converts to `Header::Simple(nn)`. -/
theorem claim4_amended (nn : Nat) (hnn : nn < 256) :
    tryFromTitle ⟨.Other, .Next1 nn⟩ = .ok (.Simple nn) := rfl

/-- C4 witness: the amended claim at `nn = 200`. -/
theorem claim4_witness :
    200 < 256 ∧ tryFromTitle ⟨.Other, .Next1 200⟩ = .ok (.Simple 200) :=
  ⟨by norm_num, claim4_amended 200 (by norm_num)⟩

/-- `bytesLe` is reflexive. -/
theorem bytesLe_refl (l : List Nat) : bytesLe l l = true := by
  induction l with
  | nil => rfl
  | cons x xs ih => simp [bytesLe, ih]

/-- `bytesLe` is total. -/
theorem bytesLe_total (a : List Nat) : ∀ b, bytesLe a b = true ∨ bytesLe b a = true := by
  induction a with
  | nil => intro b; exact Or.inl rfl
  | cons x xs ih =>
    intro b
    cases b with
    | nil => exact Or.inr rfl
    | cons y ys =>
      rcases Nat.lt_trichotomy x y with h | h | h
      · exact Or.inl (by simp [bytesLe, h])
      · subst h
        rcases ih ys with h2 | h2
        · exact Or.inl (by simp [bytesLe, h2])
        · exact Or.inr (by simp [bytesLe, h2])
      · exact Or.inr (by simp [bytesLe, h])

/-- `bytesLe` is antisymmetric. -/
theorem bytesLe_antisymm (a : List Nat) : ∀ b, bytesLe a b = true → bytesLe b a = true → a = b := by
  induction a with
  | nil =>
    intro b _ hba
    cases b with
    | nil => rfl
    | cons y ys => simp [bytesLe] at hba
  | cons x xs ih =>
    intro b hab hba
    cases b with
    | nil => simp [bytesLe] at hab
    | cons y ys =>
      simp only [bytesLe, Bool.or_eq_true, Bool.and_eq_true, decide_eq_true_eq] at hab hba
      rcases hab with h1 | ⟨h1, h2⟩ <;> rcases hba with g1 | ⟨g1, g2⟩ <;>
        first
          | omega
          | (subst h1; rw [ih ys h2 g2])

/-- `bytesLe` is transitive. -/
theorem bytesLe_trans (a : List Nat) : ∀ b c, bytesLe a b = true → bytesLe b c = true →
    bytesLe a c = true := by
  induction a with
  | nil => intro b c _ _; rfl
  | cons x xs ih =>
    intro b c hab hbc
    cases b with
    | nil => simp [bytesLe] at hab
    | cons y ys =>
      cases c with
      | nil => simp [bytesLe] at hbc
      | cons z zs =>
        simp only [bytesLe, Bool.or_eq_true, Bool.and_eq_true, decide_eq_true_eq]
          at hab hbc ⊢
        rcases hab with h1 | ⟨h1, h2⟩ <;> rcases hbc with g1 | ⟨g1, g2⟩
        · exact Or.inl (by omega)
        · exact Or.inl (by omega)
        · exact Or.inl (by omega)
        · exact Or.inr ⟨by omega, ih ys zs h2 g2⟩

/-- The pair order is total. -/
theorem pairLe_total (a b : List Nat × List Nat) :
    (pairLe a b || pairLe b a) = true := by
  simp only [pairLe, Bool.or_eq_true]
  by_cases h : a.1 = b.1
  · simp only [h, if_pos rfl, if_true]
    rcases bytesLe_total a.2 b.2 with h2 | h2
    · exact Or.inl (by simp [h2])
    · exact Or.inr (by simp [h2])
  · rw [if_neg h, if_neg (fun hba => h hba.symm)]
    exact bytesLe_total a.1 b.1

/-- The pair order is antisymmetric. -/
theorem pairLe_antisymm (a b : List Nat × List Nat)
    (hab : pairLe a b = true) (hba : pairLe b a = true) : a = b := by
  simp only [pairLe] at hab hba
  by_cases h : a.1 = b.1
  · rw [if_pos h] at hab
    rw [if_pos h.symm] at hba
    have h2 := bytesLe_antisymm a.2 b.2 hab hba
    exact Prod.ext h h2
  · rw [if_neg h] at hab
    rw [if_neg (fun hba' => h hba'.symm)] at hba
    exact absurd (bytesLe_antisymm a.1 b.1 hab hba) h

/-- The pair order is transitive. -/
theorem pairLe_trans (a b c : List Nat × List Nat)
    (hab : pairLe a b = true) (hbc : pairLe b c = true) : pairLe a c = true := by
  simp only [pairLe] at hab hbc ⊢
  by_cases h1 : a.1 = b.1 <;> by_cases h2 : b.1 = c.1
  · rw [if_pos h1] at hab
    rw [if_pos h2] at hbc
    rw [if_pos (h1.trans h2)]
    exact bytesLe_trans a.2 b.2 c.2 hab hbc
  · rw [if_pos h1] at hab
    rw [if_neg h2] at hbc
    rw [if_neg (fun hac => h2 (h1.symm.trans hac)), h1]
    exact hbc
  · rw [if_neg h1] at hab
    rw [if_pos h2] at hbc
    rw [if_neg (fun hac => h1 (hac.trans h2.symm)), ← h2]
    exact hab
  · rw [if_neg h1] at hab
    rw [if_neg h2] at hbc
    have hac : a.1 ≠ c.1 := by
      intro hac
      exact h1 (bytesLe_antisymm a.1 b.1 hab (hac ▸ hbc))
    rw [if_neg hac]
    exact bytesLe_trans a.1 b.1 c.1 hab hbc

/-- The pair order weakens to the byte-lexicographic order on the keys. -/
theorem pairLe_key (p q : List Nat × List Nat) (h : pairLe p q = true) :
    bytesLe p.1 q.1 = true := by
  simp only [pairLe] at h
  by_cases he : p.1 = q.1
  · rw [he]
    exact bytesLe_refl q.1
  · rwa [if_neg he] at h

/-- C7 (confirmed): `end_map!` in RFC 8949 canonicalization mode writes
a definite-length map header counting the entries, followed by the
already-serialized `(key, value)` pairs in an order whose serialized
keys are byte-lexicographically sorted, and the output is identical
for every insertion order of the same entries. -/
theorem claim7_canonical_sort (entries entries' : List (List Nat × List Nat))
    (hlen : entries.length < 2 ^ 64) (hperm : entries'.Perm entries) :
    endMapRfc8049 entries' = endMapRfc8049 entries ∧
    ∃ sorted : List (List Nat × List Nat),
      sorted.Perm entries ∧
      List.Pairwise (fun p q => bytesLe p.1 q.1 = true) sorted ∧
      endMapRfc8049 entries =
        encodeHeader (.Map (some entries.length)) ++
          (sorted.map fun p => p.1 ++ p.2).flatten := by
  have htrans : ∀ a b c : List Nat × List Nat,
      pairLe a b = true → pairLe b c = true → pairLe a c = true := pairLe_trans
  have htotal : ∀ a b : List Nat × List Nat, (pairLe a b || pairLe b a) = true :=
    pairLe_total
  have hs1 : List.Pairwise (fun a b => pairLe a b = true) (entries'.mergeSort pairLe) :=
    List.sorted_mergeSort htrans htotal entries'
  have hs2 : List.Pairwise (fun a b => pairLe a b = true) (entries.mergeSort pairLe) :=
    List.sorted_mergeSort htrans htotal entries
  have hmsp : (entries'.mergeSort pairLe).Perm (entries.mergeSort pairLe) :=
    ((entries'.mergeSort_perm pairLe).trans hperm).trans
      (entries.mergeSort_perm pairLe).symm
  have hmseq : entries'.mergeSort pairLe = entries.mergeSort pairLe :=
    @List.eq_of_perm_of_sorted _ _ ⟨pairLe_antisymm⟩ _ _ hmsp hs1 hs2
  constructor
  · unfold endMapRfc8049
    rw [hmseq, hperm.length_eq]
  · refine ⟨entries.mergeSort pairLe, entries.mergeSort_perm pairLe,
      hs2.imp ?_, rfl⟩
    intro p q h
    exact pairLe_key p q h

/-- C7 witness: the sorted-map theorem at the two insertion orders of
the entries of the spec's scenario 5 (keys `"a"`, `"b"`, `"aa"`). -/
theorem claim7_witness :
    endMapRfc8049 [([0x61, 0x62], [0x19, 0x10, 0x68]), ([0x61, 0x61], [0x18, 0x2a]),
        ([0x62, 0x61, 0x61], [0x19, 0x01, 0xa4])] =
      endMapRfc8049 [([0x61, 0x61], [0x18, 0x2a]), ([0x61, 0x62], [0x19, 0x10, 0x68]),
        ([0x62, 0x61, 0x61], [0x19, 0x01, 0xa4])] ∧
    ∃ sorted : List (List Nat × List Nat),
      sorted.Perm [([0x61, 0x61], [0x18, 0x2a]), ([0x61, 0x62], [0x19, 0x10, 0x68]),
        ([0x62, 0x61, 0x61], [0x19, 0x01, 0xa4])] ∧
      List.Pairwise (fun p q => bytesLe p.1 q.1 = true) sorted ∧
      endMapRfc8049 [([0x61, 0x61], [0x18, 0x2a]), ([0x61, 0x62], [0x19, 0x10, 0x68]),
          ([0x62, 0x61, 0x61], [0x19, 0x01, 0xa4])] =
        encodeHeader (.Map (some ([([0x61, 0x61], [0x18, 0x2a]),
            ([0x61, 0x62], [0x19, 0x10, 0x68]),
            ([0x62, 0x61, 0x61], [0x19, 0x01, 0xa4])] :
              List (List Nat × List Nat)).length)) ++
          (sorted.map fun p => p.1 ++ p.2).flatten :=
  claim7_canonical_sort _ _ (by norm_num) (List.Perm.swap _ _ _)

/-- C8 (confirmed): each of the single bytes `1c`, `1d`, `1e`
(reserved minor selectors 28-30) fails to decode as a standalone item
with `Syntax(0)`, and the single byte `1f` (major `Positive` with the
indeterminate minor) fails at header promotion with `Syntax(0)`. -/
theorem claim8_reserved_selectors :
    decPullHeader ⟨[0x1c], 0, none⟩ false = .error (.synError 0) ∧
    decPullHeader ⟨[0x1d], 0, none⟩ false = .error (.synError 0) ∧
    decPullHeader ⟨[0x1e], 0, none⟩ false = .error (.synError 0) ∧
    decPullHeader ⟨[0x1f], 0, none⟩ false = .error (.synError 0) := by
  refine ⟨rfl, rfl, rfl, rfl⟩

/-- C9 (counterexample): `Float` equality is bit-pattern equality, so
two NaNs with different payloads are NOT equal, contradicting the
claim that any NaN equals any other NaN. -/
theorem claim9_counterexample :
    isNanBits 0x7FF8000000000000 = true ∧
    isNanBits 0x7FF8000000000001 = true ∧
    vfloatEq ⟨0x7FF8000000000000⟩ ⟨0x7FF8000000000001⟩ = false := by
  refine ⟨by decide, by decide, by decide⟩

/-- C9 (amended): `Float` equality holds exactly on identical bit
patterns (so `+0.0 ≠ -0.0`, and NaNs are equal only when their bit
patterns coincide), while the total ordering treats every NaN as
greater than every non-NaN and equal to every other NaN. -/
theorem claim9_amended (a b : VFloat) :
    (vfloatEq a b = true ↔ a.bits = b.bits) ∧
    (isNanBits a.bits = true → isNanBits b.bits = true → vfloatCmp a b = .eq) ∧
    (isNanBits a.bits = true → isNanBits b.bits = false → vfloatCmp a b = .gt) ∧
    (isNanBits a.bits = false → isNanBits b.bits = true → vfloatCmp a b = .lt) ∧
    vfloatEq ⟨0⟩ ⟨2 ^ 63⟩ = false := by
  refine ⟨by simp [vfloatEq], ?_, ?_, ?_, by decide⟩ <;>
    intro ha hb <;> simp [vfloatCmp, ha, hb]

/-- C9 witness: the amended claim applied to two NaNs with distinct
payloads — unequal under `==`, yet `Equal` under `cmp`. -/
theorem claim9_witness :
    vfloatCmp ⟨0x7FF8000000000000⟩ ⟨0x7FF8000000000001⟩ = .eq ∧
    vfloatEq ⟨0x7FF8000000000000⟩ ⟨0x7FF8000000000001⟩ = false := by
  refine ⟨(claim9_amended ⟨0x7FF8000000000000⟩ ⟨0x7FF8000000000001⟩).2.1
    (by decide) (by decide), ?_⟩
  rw [← Bool.not_eq_true,
    (claim9_amended ⟨0x7FF8000000000000⟩ ⟨0x7FF8000000000001⟩).1]
  decide

/-- C10 (confirmed): the decoder's one-slot lookahead is enforced by
assertions — `push` while a title is buffered panics, `read_exact`
while a title is buffered panics — and when the assertions hold,
`push` followed by `pull` of the same title returns the decoder to its
exact previous state: `push` subtracts and `pull` re-adds the
`1 + affix-length` byte count, leaving `offset()` unchanged. -/
theorem claim10_lookahead_slot (d : Decoder) (t u : Title) (n : Nat) :
    (d.buffer = some u → decPush d t = .panic ∧ decReadExact d n = .panic) ∧
    (d.buffer = none → d.offset < 2 ^ 64 →
      ∃ dP, decPush d t = .ok dP ∧ decPullTitle dP false = .ok (t, d)) := by
  obtain ⟨rd, off, buf⟩ := d
  constructor
  · rintro rfl
    exact ⟨by simp [decPush], by simp [decReadExact]⟩
  · rintro rfl hoff
    refine ⟨⟨rd, wsub off (t.mnr.affixLen + 1), some t⟩, by simp [decPush], ?_⟩
    have hoff' : off < 2 ^ 64 := hoff
    have haff : t.mnr.affixLen ≤ 8 := t.mnr.affixLen_le
    have hmod : (t.mnr.affixLen + 1) % 2 ^ 64 = t.mnr.affixLen + 1 :=
      Nat.mod_eq_of_lt (by omega)
    have hsub : (wsub off (t.mnr.affixLen + 1) + (t.mnr.affixLen + 1)) % 2 ^ 64 = off := by
      unfold wsub
      rw [hmod]
      omega
    simp [decPullTitle]
    exact hsub

/-- C10 witness: both parts of the lookahead-slot theorem at concrete
decoders and titles. -/
theorem claim10_witness :
    decPush ⟨[], 5, some ⟨.Other, .More⟩⟩ ⟨.Positive, .This 0⟩ = .panic ∧
    decReadExact ⟨[], 5, some ⟨.Other, .More⟩⟩ 3 = .panic ∧
    ∃ dP, decPush ⟨[1, 2], 7, none⟩ ⟨.Positive, .This 0⟩ = .ok dP ∧
      decPullTitle dP false = .ok (⟨.Positive, .This 0⟩, ⟨[1, 2], 7, none⟩) := by
  refine ⟨((claim10_lookahead_slot _ _ ⟨.Other, .More⟩ 3).1 rfl).1,
    ((claim10_lookahead_slot ⟨[], 5, some ⟨.Other, .More⟩⟩ ⟨.Positive, .This 0⟩
      ⟨.Other, .More⟩ 3).1 rfl).2,
    (claim10_lookahead_slot ⟨[1, 2], 7, none⟩ ⟨.Positive, .This 0⟩
      ⟨.Other, .More⟩ 3).2 rfl (by norm_num)⟩

end Ciborium
